import Mathlib

/-!
Verification of the circuit intermediate-representation and transformation
pipeline of the qBraid SDK: the circuit equality comparator, the gate
exponent normalizer, the measurement extractor/reinserter, the IonQ device
rebase pass, and the transpile dispatcher.

The cirq-side utility module (qubit canonicalizer, exponent normalizer,
measurement utilities, equality comparator) is not present in the sources,
only its tests are; those components are modelled from the specification
(sections 3, 4.1 to 4.4), as marked on each definition.  The IonQ
compilation function and the dispatcher are embedded directly from
qbraid/devices/aws/ionq.py and qbraid/__init__.py.
-/

/-- Modelled from the spec (section 3, missing module
qbraid/interface/qbraid_cirq/utils.py): a qubit is an opaque identity,
given by a line index, a grid coordinate, or a name. -/
inductive QubitId
  | line (n : Nat)
  | grid (r c : Nat)
  | named (s : String)
  deriving DecidableEq

/-- Modelled from the spec (section 3): the closed set of gate families the
normalizer and comparator know about.  X, Y, Z, H and CNOT are the
self-inverse families; S and T have no known finite-order reduction rule;
meas is the measurement gate. -/
inductive GateFam
  | X | Y | Z | H | CNOT | SWAP | S | T | meas
  deriving DecidableEq

/-- Modelled from the spec (section 3): a gate is a tagged family together
with a real-valued exponent. -/
structure Gate where
  fam : GateFam
  exp : ℚ
  deriving DecidableEq

/-- Modelled from the spec (section 3): an operation is a gate, an ordered
tuple of qubit references, and an optional classical-register key for
measurements. -/
structure Operation where
  gate : Gate
  qubits : List QubitId
  key : Option String := none
  deriving DecidableEq

/-- Modelled from the spec (section 3): a circuit is an ordered sequence of
operations, a value type for comparison purposes. -/
abbrev Circuit := List Operation

/-- Modelled from the spec (section 4.2): families with a self-inverse
(period two) exponent algebra. -/
def selfInverse : GateFam → Bool
  | .X | .Y | .Z | .H | .CNOT => true
  | _ => false

/-- Modelled from the spec (section 4.2): the canonical representative of
an exponent modulo the period two of a self-inverse family, chosen in the
half-open interval from zero to two, so that exponents three and minus one
both map to one. -/
def normExp (e : ℚ) : ℚ := e - 2 * (⌊e / 2⌋ : ℚ)

/-- Modelled from the spec (section 4.2): the gate exponent normalizer.
For a self-inverse family it substitutes the canonical exponent; families
without a known finite-order reduction rule, and gates with measurement
semantics, are returned unchanged. -/
def _simplify_gate_exponent (g : Gate) : Gate :=
  if selfInverse g.fam then { g with exp := normExp g.exp } else g

/-- Modelled from the spec (section 4.2): normalization applied to each
operation of a circuit, only ever substituting the exponent, never the
qubits the gate acts on. -/
def _simplify_circuit_exponents (c : Circuit) : Circuit :=
  c.map fun op => { op with gate := _simplify_gate_exponent op.gate }

/-- Modelled from the spec (section 4.3): whether an operation is a
measurement. -/
def _is_measurement (op : Operation) : Bool := decide (op.gate.fam = GateFam.meas)

/-- Modelled from the spec (section 4.1): comparison of two strings used
for the lexical ordering of named qubits. -/
def stringLe (s t : String) : Bool := decide (s = t) || decide (s < t)

/-- Modelled from the spec (section 4.1): the natural enumeration order on
qubit identities, ascending index for line qubits, row-major for grid
qubits, lexical for named qubits, with the three kinds kept in a fixed
relative order. -/
def qubitLe : QubitId → QubitId → Bool
  | .line n, .line m => decide (n ≤ m)
  | .line _, .grid _ _ => true
  | .line _, .named _ => true
  | .grid _ _, .line _ => false
  | .grid r c, .grid r2 c2 => decide (r < r2) || (decide (r = r2) && decide (c ≤ c2))
  | .grid _ _, .named _ => true
  | .named _, .line _ => false
  | .named _, .grid _ _ => false
  | .named s, .named t => stringLe s t

/-- Modelled from the spec (section 4.1): insertion of a qubit into a list
kept in natural enumeration order. -/
def insertSorted (q : QubitId) : List QubitId → List QubitId
  | [] => [q]
  | x :: xs => if qubitLe q x then q :: x :: xs else x :: insertSorted q xs

/-- Modelled from the spec (section 4.1): sorting a list of qubits into the
natural enumeration order. -/
def sortQubits : List QubitId → List QubitId
  | [] => []
  | x :: xs => insertSorted x (sortQubits xs)

/-- Modelled from the spec (section 4.1): removal of duplicate qubit
identities before assigning ordinals. -/
def dedupQ : List QubitId → List QubitId
  | [] => []
  | x :: xs => if x ∈ xs then dedupQ xs else x :: dedupQ xs

/-- Modelled from the spec (section 4.1): the qubits referenced by a
circuit, in order of appearance with repetitions. -/
def concatQubits (c : Circuit) : List QubitId :=
  (c.map fun op => op.qubits).flatten

/-- Modelled from the spec (section 4.1): the index of a qubit in a list,
giving its canonical ordinal position. -/
def idxOf (q : QubitId) : List QubitId → Nat
  | [] => 0
  | x :: xs => if x = q then 0 else idxOf q xs + 1

/-- Modelled from the spec (section 4.1): the canonical qubit enumeration
of a circuit, mapping each of its qubits to a shared ordinal index space. -/
def canonicalQubits (c : Circuit) : List QubitId :=
  sortQubits (dedupQ (concatQubits c))

/-- Modelled from the spec (section 4.4): comparison of a single pair of
operations.  Gate tags and canonical exponents are compared after
normalizing both sides; qubits are compared by native identity when
qstrict is set and by canonical ordinal position otherwise; measurement
keys are compared exactly when mstrict is set and ignored on measurement
operations otherwise. -/
def opEqual (sA sB : List QubitId) (qstrict mstrict : Bool) (x y : Operation) : Bool :=
  decide (_simplify_gate_exponent x.gate = _simplify_gate_exponent y.gate)
  && (if qstrict then decide (x.qubits = y.qubits)
      else decide (x.qubits.map (fun q => idxOf q sA) = y.qubits.map (fun q => idxOf q sB)))
  && (if mstrict || !(_is_measurement x) then decide (x.key = y.key) else true)

/-- Modelled from the spec (section 4.4): the circuit equality comparator.
Two circuits of different operation-sequence lengths are unequal; otherwise
both operation sequences are walked in lockstep and each pair compared.
The default strictness is lenient on both axes. -/
def _equal (a b : Circuit) (qstrict mstrict : Bool) : Bool :=
  decide (a.length = b.length)
  && (a.zip b).all fun p => opEqual (canonicalQubits a) (canonicalQubits b) qstrict mstrict p.1 p.2

/-- Modelled from the spec (section 4.3): the measurement operations of a
circuit together with the position each one was removed from, in original
relative order.  The spec requires reinsertion to reproduce byte-for-byte
structural equality with the original for any circuit, so the extractor
records each removed operation's position. -/
def measurementsFrom (i : Nat) : Circuit → List (Nat × Operation)
  | [] => []
  | op :: rest =>
    if _is_measurement op then (i, op) :: measurementsFrom (i + 1) rest
    else measurementsFrom (i + 1) rest

/-- Modelled from the spec (section 4.3): extraction splits a circuit into
the measurement-free circuit, keeping every non-measurement operation in
original relative order, and the ordered sequence of removed measurement
operations. -/
def _pop_measurements (c : Circuit) : Circuit × List (Nat × Operation) :=
  (c.filter fun op => !(_is_measurement op), measurementsFrom 0 c)

/-- Modelled from the spec (section 4.3): merge of the removed measurement
operations back into the measurement-free circuit at their recorded
positions. -/
def appendGo (i : Nat) (rest : Circuit) (ms : List (Nat × Operation)) : Circuit :=
  match ms with
  | [] => rest
  | (j, m) :: ms2 =>
    if i = j then m :: appendGo (i + 1) rest ms2
    else
      match rest with
      | [] => m :: ms2.map Prod.snd
      | r :: rest2 => r :: appendGo (i + 1) rest2 ((j, m) :: ms2)
  termination_by rest.length + ms.length
  decreasing_by
    all_goals simp_wf

/-- Modelled from the spec (section 4.3): reinsertion appends the extracted
measurement sequence back, in the same order it was extracted, reproducing
the original circuit. -/
def _append_measurements (c : Circuit) (ms : List (Nat × Operation)) : Circuit :=
  appendGo 0 c ms

/-- Modelled from the spec (section 4.4): relabeling of every qubit
reference of a circuit, keeping gates and keys unchanged, used to build a
structurally identical circuit over a differently-labeled qubit set. -/
def renameQubits (f : QubitId → QubitId) (c : Circuit) : Circuit :=
  c.map fun op => { op with qubits := op.qubits.map f }

/-- Gate tags of the pytket dialect used by the IonQ compilation pipeline in
qbraid/devices/aws/ionq.py, together with CCX as a representative gate that
is outside the IonQ target vocabulary but decomposable into it. -/
inductive OpType
  | X | Y | Z | Rx | Ry | Rz | H | S | Sdg | T | Tdg | V | Vdg
  | Measure | noop | SWAP | CX | ZZPhase | XXPhase | YYPhase | ZZMax | Barrier
  | CCX
  deriving DecidableEq

/-- A rotation parameter: a concrete angle or an unbound symbolic name. -/
inductive PParam
  | const (val : ℚ)
  | symbolic (name : String)
  deriving DecidableEq

/-- An operation of the pytket-style circuit consumed by the rebase pass: a
gate tag, its qubit arguments, an optional parameter, and whether it is
classically controlled. -/
structure TkOp where
  type : OpType
  args : List Nat
  param : Option PParam := none
  conditional : Bool := false
  deriving DecidableEq

/-- A circuit for the IonQ compilation pipeline: a declared qubit count and
an ordered list of operations.  The modelled braket and pytket dialects
share this representation. -/
structure QCircuit where
  qubits : Nat
  ops : List TkOp
  deriving DecidableEq

/-- Maximum qubit count of the IonQ Harmony device, from
qbraid/devices/aws/ionq.py. -/
def HARMONY_MAX_QUBITS : Nat := 11

/-- The IonQ target gate vocabulary, from qbraid/devices/aws/ionq.py. -/
def ionq_gates : List OpType :=
  [.X, .Y, .Z, .Rx, .Ry, .Rz, .H, .S, .Sdg, .T, .Tdg, .V, .Vdg,
   .Measure, .noop, .SWAP, .CX, .ZZPhase, .XXPhase, .YYPhase, .ZZMax, .Barrier]

/-- NoClassicalControlPredicate: no operation is classically controlled. -/
def noClassicalControlPredicate (c : QCircuit) : Bool :=
  c.ops.all fun op => !op.conditional

/-- Helper for NoFastFeedforwardPredicate: scans the operations, tracking
whether a measurement has been seen, and fails on a classically controlled
operation after a measurement. -/
def noFFAux : Bool → List TkOp → Bool
  | _, [] => true
  | seen, op :: rest =>
    if seen && op.conditional then false
    else noFFAux (seen || decide (op.type = .Measure)) rest

/-- NoFastFeedforwardPredicate: no classically controlled operation occurs
after a measurement. -/
def noFastFeedforwardPredicate (c : QCircuit) : Bool :=
  noFFAux false c.ops

/-- NoMidMeasurePredicate: every measurement is terminal, no later
operation acts on a measured qubit. -/
def noMidMeasurePredicate : QCircuit → Bool :=
  fun c => noMidMeasureAux c.ops
where
  noMidMeasureAux : List TkOp → Bool
    | [] => true
    | op :: rest =>
      if op.type = .Measure then
        (rest.all fun op2 => op.args.all fun q => !(op2.args.contains q))
          && noMidMeasureAux rest
      else noMidMeasureAux rest

/-- NoSymbolsPredicate: no operation carries an unbound symbolic
parameter. -/
def noSymbolsPredicate (c : QCircuit) : Bool :=
  c.ops.all fun op =>
    match op.param with
    | some (.symbolic _) => false
    | _ => true

/-- GateSetPredicate: every operation's gate tag is a member of the given
vocabulary. -/
def gateSetPredicate (s : List OpType) (c : QCircuit) : Bool :=
  c.ops.all fun op => decide (op.type ∈ s)

/-- MaxNQubitsPredicate: the circuit uses at most the given number of
qubits. -/
def maxNQubitsPredicate (n : Nat) (c : QCircuit) : Bool :=
  decide (c.qubits ≤ n)

/-- The predicate list registered for the IonQ Harmony device, from
qbraid/devices/aws/ionq.py. -/
def preds : List (QCircuit → Bool) :=
  [noClassicalControlPredicate,
   noFastFeedforwardPredicate,
   noMidMeasurePredicate,
   noSymbolsPredicate,
   gateSetPredicate ionq_gates,
   maxNQubitsPredicate HARMONY_MAX_QUBITS]

/-- Modelled from the spec (section 4.6, external rebase pass of
qbraid/devices/aws/ionq.py): rewriting of one operation into the target
vocabulary.  Operations already in the vocabulary are kept; the CCX gate is
decomposed into the standard exact sequence of H, CX, T and Tdg gates, all
members of the vocabulary. -/
def rebaseOp (op : TkOp) : List TkOp :=
  if decide (op.type ∈ ionq_gates) then [op]
  else
    match op.type, op.args with
    | .CCX, [a, b, c] =>
      [⟨.H, [c], none, false⟩, ⟨.CX, [b, c], none, false⟩, ⟨.Tdg, [c], none, false⟩,
       ⟨.CX, [a, c], none, false⟩, ⟨.T, [c], none, false⟩, ⟨.CX, [b, c], none, false⟩,
       ⟨.Tdg, [c], none, false⟩, ⟨.CX, [a, c], none, false⟩, ⟨.T, [b], none, false⟩,
       ⟨.T, [c], none, false⟩, ⟨.H, [c], none, false⟩, ⟨.CX, [a, b], none, false⟩,
       ⟨.T, [a], none, false⟩, ⟨.Tdg, [b], none, false⟩, ⟨.CX, [a, b], none, false⟩]
    | _, _ => [op]

/-- Modelled from the spec (section 4.6): the custom rebase pass rewrites
every operation of the circuit into the IonQ vocabulary, preserving the
qubit count. -/
def ionq_rebase_pass (c : QCircuit) : QCircuit :=
  ⟨c.qubits, (c.ops.map rebaseOp).flatten⟩

/-- A compilation unit pairs the circuit under transformation with the
predicate set it must satisfy.  Constructing one from a circuit stores a
copy of that circuit: passes applied to the unit rewrite the unit's copy
and leave the original circuit object untouched, matching the pytket
CompilationUnit semantics used by qbraid/devices/aws/ionq.py. -/
structure CompilationUnit where
  circuit : QCircuit
  predicates : List (QCircuit → Bool)

/-- Evaluation of every registered predicate on the unit's circuit. -/
def CompilationUnit.check_all_predicates (cu : CompilationUnit) : Bool :=
  cu.predicates.all fun p => p cu.circuit

/-- Application of the IonQ rebase pass to a compilation unit: the unit's
circuit is replaced by its rebased form. -/
def applyPass (cu : CompilationUnit) : CompilationUnit :=
  { cu with circuit := ionq_rebase_pass cu.circuit }

/-- Modelled from the spec (sections 4.5 and 6, missing transpiler
package): the dispatcher converts a braket circuit to the pytket dialect,
preserving every operation with an exact equivalent.  Every modelled
operation type has an exact equivalent in both dialects, so the conversion
is the identity on the modelled representation. -/
def transpile_braket_to_pytket (c : QCircuit) : QCircuit := c

/-- Modelled from the spec (sections 4.5 and 6, missing transpiler
package): conversion from the pytket dialect back to braket, again the
identity on the modelled representation. -/
def transpile_pytket_to_braket (c : QCircuit) : QCircuit := c

/-- Failure modes of the IonQ compilation: the bare assertion failure the
source raises, and the structured predicate report the spec describes. -/
inductive CompileError
  | assertionError
  | predicateUnsatisfied (failing : List String)
  deriving DecidableEq

/-- Embedded from braket_ionq_compilation in qbraid/devices/aws/ionq.py:
transpile the braket circuit to pytket, build a compilation unit over the
IonQ predicates, apply the rebase pass to the unit, assert that the unit
satisfies all predicates, and return the transpilation of tk_circuit (the
pre-rebase circuit, exactly as the source does) back to braket. -/
def braket_ionq_compilation (circuit : QCircuit) : Except CompileError QCircuit :=
  let tk_circuit := transpile_braket_to_pytket circuit
  let cu : CompilationUnit := ⟨tk_circuit, preds⟩
  let cu2 := applyPass cu
  if cu2.check_all_predicates then .ok (transpile_pytket_to_braket tk_circuit)
  else .error .assertionError

/-- A circuit object of some external package, identified by the module
name of its class, as qbraid/__init__.py inspects it. -/
structure PyCircuit where
  module : String
  deriving DecidableEq

/-- A loaded circuit-wrapper instance: the adapter class that was loaded
and the wrapped input circuit. -/
structure CircuitWrapper where
  adapterClass : String
  circuit : PyCircuit
  deriving DecidableEq

/-- The transpiler entrypoint registry, from the qbraid.transpiler group of
src/setup.py: each entry name mapped to its loadable class. -/
def transpiler_entrypoints : List (String × String) :=
  [("braket", "BraketCircuitWrapper"),
   ("cirq", "CirqCircuitWrapper"),
   ("qiskit", "QiskitCircuitWrapper"),
   ("qbraid", "QbraidCircuitWrapper")]

/-- Errors circuit_wrapper can raise: the WrapperError of
qbraid/__init__.py, and a Python KeyError for a failed registry lookup. -/
inductive PyError
  | wrapperError (msg : String)
  | keyError (key : String)
  deriving DecidableEq

/-- Lowercasing of a single character, the ASCII behaviour of the Python
str.lower method used by qbraid/__init__.py. -/
def charLower (c : Char) : Char :=
  if 65 ≤ c.toNat ∧ c.toNat ≤ 90 then Char.ofNat (c.toNat + 32) else c

/-- Lowercasing of a string, the Python str.lower call of
qbraid/__init__.py restricted to ASCII letters. -/
def pyLower (s : String) : String := ⟨s.data.map charLower⟩

/-- Characters of a module name before the first dot. -/
def topPackageData : List Char → List Char
  | [] => []
  | c :: cs => if c = '.' then [] else c :: topPackageData cs

/-- The first dot-separated component of a module name, as computed by
circuit.__module__.split(".")[0] in qbraid/__init__.py. -/
def topPackage (module : String) : String :=
  ⟨topPackageData module.data⟩

/-- Embedded from circuit_wrapper in qbraid/__init__.py: the dialect is the
first component of the input's module name; the registry membership test
uses that raw name case-sensitively, while the entrypoint loaded on
success is keyed by its lowercased form. -/
def circuit_wrapper (c : PyCircuit) : Except PyError CircuitWrapper :=
  let package := topPackage c.module
  let ep := pyLower package
  if (transpiler_entrypoints.lookup package).isSome then
    match transpiler_entrypoints.lookup ep with
    | some cls => .ok ⟨cls, c⟩
    | none => .error (.keyError ep)
  else .error (.wrapperError (package ++ " is not a supported package."))

/-- The normalized exponent divided by two is the fractional part of half
the original exponent. -/
lemma normExp_half_eq_fract (e : ℚ) : normExp e / 2 = Int.fract (e / 2) := by
  simp only [normExp, Int.fract]
  ring

/-- The floor of half a normalized exponent vanishes. -/
lemma floor_normExp_half (e : ℚ) : ⌊normExp e / 2⌋ = 0 := by
  rw [normExp_half_eq_fract, Int.floor_fract]

/-- Canonicalizing an exponent twice equals canonicalizing once. -/
lemma normExp_idem (e : ℚ) : normExp (normExp e) = normExp e := by
  calc normExp (normExp e) = normExp e - 2 * ((⌊normExp e / 2⌋ : ℤ) : ℚ) := rfl
    _ = normExp e := by rw [floor_normExp_half]; simp

/-- Claim C4: the gate-exponent normalizer is idempotent, normalizing twice
yields the same result as normalizing once; and for gate families with no
known finite-order reduction rule normalization returns the gate unchanged
rather than erroring. -/
theorem simplify_exponent_idempotent (g : Gate) :
    _simplify_gate_exponent (_simplify_gate_exponent g) = _simplify_gate_exponent g ∧
    (selfInverse g.fam = false → _simplify_gate_exponent g = g) := by
  constructor
  · by_cases h : selfInverse g.fam = true
    · simp [_simplify_gate_exponent, h, normExp_idem]
    · simp only [Bool.not_eq_true] at h
      simp [_simplify_gate_exponent, h]
  · intro h
    simp [_simplify_gate_exponent, h]

/-- Witness for claim C4 at the gate T to the power minus one, a family the
normalizer has no reduction rule for. -/
theorem simplify_exponent_idempotent_witness :
    _simplify_gate_exponent (_simplify_gate_exponent ⟨GateFam.T, -1⟩)
        = _simplify_gate_exponent ⟨GateFam.T, -1⟩ ∧
    _simplify_gate_exponent ⟨GateFam.T, -1⟩ = ⟨GateFam.T, -1⟩ :=
  ⟨(simplify_exponent_idempotent ⟨GateFam.T, -1⟩).1,
   (simplify_exponent_idempotent ⟨GateFam.T, -1⟩).2 rfl⟩

/-- The floor of half an odd integer, read in the rationals. -/
lemma floor_odd_half (k : ℤ) : ⌊(2 * (k : ℚ) + 1) / 2⌋ = k := by
  rw [Int.floor_eq_iff]
  constructor
  · linarith
  · linarith

/-- An odd integer exponent canonicalizes to exactly one. -/
lemma normExp_odd (k : ℤ) : normExp (2 * (k : ℚ) + 1) = 1 := by
  rw [normExp, floor_odd_half]
  ring

/-- The exponent one is already canonical. -/
lemma normExp_one : normExp (1 : ℚ) = 1 := by
  have h := normExp_odd 0
  norm_num at h
  exact h

/-- Claim C7: for every gate of a self-inverse family whose exponent is an
odd integer, the normalizer returns the gate of the same family with
exponent exactly one, acting on the same qubits at the operation level, and
the returned gate has the same canonical form as the input, hence the same
unitary action. -/
theorem simplify_odd_exponent_to_one (f : GateFam) (e : ℚ) (qs : List QubitId)
    (key : Option String) (k : ℤ) (hfam : selfInverse f = true)
    (he : e = 2 * (k : ℚ) + 1) :
    _simplify_gate_exponent ⟨f, e⟩ = ⟨f, 1⟩ ∧
    _simplify_circuit_exponents [⟨⟨f, e⟩, qs, key⟩] = [⟨⟨f, 1⟩, qs, key⟩] ∧
    _simplify_gate_exponent ⟨f, 1⟩ = _simplify_gate_exponent ⟨f, e⟩ := by
  have h1 : _simplify_gate_exponent ⟨f, e⟩ = ⟨f, 1⟩ := by
    simp [_simplify_gate_exponent, hfam, he, normExp_odd]
  refine ⟨h1, ?_, ?_⟩
  · simp [_simplify_circuit_exponents, h1]
  · rw [h1]
    simp [_simplify_gate_exponent, hfam, normExp_one]

/-- Witness for claim C7 at the gate X cubed on a line qubit. -/
theorem simplify_odd_exponent_to_one_witness :
    _simplify_gate_exponent ⟨GateFam.X, 3⟩ = ⟨GateFam.X, 1⟩ ∧
    _simplify_circuit_exponents [⟨⟨GateFam.X, 3⟩, [QubitId.line 0], none⟩]
        = [⟨⟨GateFam.X, 1⟩, [QubitId.line 0], none⟩] ∧
    _simplify_gate_exponent ⟨GateFam.X, 1⟩ = _simplify_gate_exponent ⟨GateFam.X, 3⟩ :=
  simplify_odd_exponent_to_one GateFam.X 3 [QubitId.line 0] none 1 rfl (by norm_num)

/-- A three-qubit braket circuit holding a single Toffoli gate, whose tag
is outside the IonQ vocabulary but which the rebase pass decomposes into
vocabulary gates. -/
def ccxCircuit : QCircuit := ⟨3, [⟨.CCX, [0, 1, 2], none, false⟩]⟩

/-- Claim C2 (exhibiting the code bug): braket_ionq_compilation succeeds on
the Toffoli circuit, because the rebased copy held by the compilation unit
satisfies every predicate, yet the circuit it returns is the pre-rebase
input, which still carries a gate tag outside the IonQ vocabulary, so the
gate-set predicate is false on the returned circuit. -/
theorem compilation_returns_unrebased_circuit :
    braket_ionq_compilation ccxCircuit = Except.ok ccxCircuit ∧
    gateSetPredicate ionq_gates ccxCircuit = false :=
  ⟨rfl, rfl⟩

/-- A twelve-qubit circuit, above the IonQ Harmony ceiling. -/
def bigCircuit : QCircuit := ⟨12, [⟨.H, [0], none, false⟩]⟩

/-- Whether a compilation result is the structured predicate report the
spec describes. -/
def isPredicateUnsatisfied : Except CompileError QCircuit → Bool
  | .error (.predicateUnsatisfied _) => true
  | _ => false

/-- Counterexample to claim C3 as stated: on a twelve-qubit circuit the
predicate set fails after the rebase rewriting, yet the compilation
surfaces a bare assertion failure carrying no list of failing predicates,
not a structured predicate-unsatisfied report. -/
theorem predicate_failure_not_reported :
    CompilationUnit.check_all_predicates
        (applyPass ⟨transpile_braket_to_pytket bigCircuit, preds⟩) = false ∧
    braket_ionq_compilation bigCircuit = Except.error CompileError.assertionError ∧
    isPredicateUnsatisfied (braket_ionq_compilation bigCircuit) = false :=
  ⟨rfl, rfl, rfl⟩

/-- When the predicate check on the rebased unit fails, the compilation
raises the bare assertion error. -/
lemma assertion_of_check_false (c : QCircuit)
    (h : CompilationUnit.check_all_predicates
        (applyPass ⟨transpile_braket_to_pytket c, preds⟩) = false) :
    braket_ionq_compilation c = Except.error CompileError.assertionError := by
  unfold braket_ionq_compilation
  simp [h]

/-- Claim C3 (amended): when any predicate fails after the rebase
rewriting, braket_ionq_compilation raises a bare assertion failure that
does not report which predicates failed; the failing unit is not returned
as output and the failure is not retried. -/
theorem predicate_failure_assertion (c : QCircuit)
    (h : CompilationUnit.check_all_predicates
        (applyPass ⟨transpile_braket_to_pytket c, preds⟩) = false) :
    braket_ionq_compilation c = Except.error CompileError.assertionError :=
  assertion_of_check_false c h

/-- Witness for claim C3 at a thirteen-qubit circuit. -/
theorem predicate_failure_assertion_witness :
    braket_ionq_compilation ⟨13, []⟩ = Except.error CompileError.assertionError :=
  predicate_failure_assertion ⟨13, []⟩ rfl

/-- Claim C9: every circuit using more than HARMONY_MAX_QUBITS qubits fails
compilation with an error, so a caller never observes a qubit-count
exceeding circuit as a successful output. -/
theorem oversized_circuit_compilation_fails (c : QCircuit)
    (h : HARMONY_MAX_QUBITS < c.qubits) :
    braket_ionq_compilation c = Except.error CompileError.assertionError := by
  apply assertion_of_check_false
  have hmax : maxNQubitsPredicate HARMONY_MAX_QUBITS
      (ionq_rebase_pass (transpile_braket_to_pytket c)) = false := by
    simp only [maxNQubitsPredicate, ionq_rebase_pass, transpile_braket_to_pytket,
      decide_eq_false_iff_not, not_le]
    exact h
  simp only [CompilationUnit.check_all_predicates, applyPass, preds,
    List.all_cons, List.all_nil]
  rw [hmax]
  simp

/-- Witness for claim C9 at a twelve-qubit circuit. -/
theorem oversized_circuit_compilation_fails_witness :
    braket_ionq_compilation ⟨12, []⟩ = Except.error CompileError.assertionError :=
  oversized_circuit_compilation_fails ⟨12, []⟩ (by decide)

/-- Every key of the entrypoint registry is already lowercase, so a package
name found in the registry equals its own lowercased form. -/
lemma lookup_key_lower (pkg cls : String)
    (h : transpiler_entrypoints.lookup pkg = some cls) : pyLower pkg = pkg := by
  by_cases h1 : pkg = "braket"
  · subst h1; decide
  by_cases h2 : pkg = "cirq"
  · subst h2; decide
  by_cases h3 : pkg = "qiskit"
  · subst h3; decide
  by_cases h4 : pkg = "qbraid"
  · subst h4; decide
  exfalso
  have b1 : (pkg == "braket") = false := beq_eq_false_iff_ne.mpr h1
  have b2 : (pkg == "cirq") = false := beq_eq_false_iff_ne.mpr h2
  have b3 : (pkg == "qiskit") = false := beq_eq_false_iff_ne.mpr h3
  have b4 : (pkg == "qbraid") = false := beq_eq_false_iff_ne.mpr h4
  have hn : transpiler_entrypoints.lookup pkg = none := by
    simp [transpiler_entrypoints, List.lookup, b1, b2, b3, b4]
  rw [hn] at h
  exact Option.noConfusion h

/-- Claim C8: circuit_wrapper dispatches on the first dot-separated
component of the input's module name; it returns the registered adapter
class wrapping the input circuit exactly when that name has a registry
entry, and otherwise raises the wrapper error naming the unsupported
package. -/
theorem circuit_wrapper_dispatch (c : PyCircuit) :
    circuit_wrapper c =
      match transpiler_entrypoints.lookup (topPackage c.module) with
      | some cls => Except.ok ⟨cls, c⟩
      | none => Except.error
          (PyError.wrapperError (topPackage c.module ++ " is not a supported package.")) := by
  cases h : transpiler_entrypoints.lookup (topPackage c.module) with
  | none => simp [circuit_wrapper, h]
  | some cls =>
    have hl : pyLower (topPackage c.module) = topPackage c.module :=
      lookup_key_lower _ _ h
    simp [circuit_wrapper, h, hl]

/-- Claim C10: for a circuit whose top-level module name differs from a
registered dialect key only in letter case, the case-sensitive membership
test fails, and circuit_wrapper raises the unsupported-package error
instead of dispatching to the registered adapter. -/
theorem case_mismatch_raises_unsupported (c : PyCircuit) (key cls : String)
    (_hmem : (key, cls) ∈ transpiler_entrypoints)
    (hne : topPackage c.module ≠ key)
    (hlow : pyLower (topPackage c.module) = key) :
    circuit_wrapper c = Except.error
      (PyError.wrapperError (topPackage c.module ++ " is not a supported package.")) := by
  have hnone : transpiler_entrypoints.lookup (topPackage c.module) = none := by
    cases h : transpiler_entrypoints.lookup (topPackage c.module) with
    | none => rfl
    | some cls2 =>
      exfalso
      have hfix : pyLower (topPackage c.module) = topPackage c.module :=
        lookup_key_lower _ _ h
      rw [hfix] at hlow
      exact hne hlow
  simp [circuit_wrapper, hnone]

/-- Witness for claim C10 at a module name differing from the registered
key cirq only in its capital letter. -/
theorem case_mismatch_raises_unsupported_witness :
    circuit_wrapper ⟨"Cirq.circuits.circuit"⟩ = Except.error
      (PyError.wrapperError (topPackage "Cirq.circuits.circuit"
        ++ " is not a supported package.")) :=
  case_mismatch_raises_unsupported ⟨"Cirq.circuits.circuit"⟩ "cirq" "CirqCircuitWrapper"
    (by decide) (by decide) (by decide)

/-- Reinserting an empty measurement sequence is the identity. -/
lemma appendGo_nil (i : Nat) (rest : Circuit) : appendGo i rest [] = rest := by
  unfold appendGo
  rfl

/-- Reinsertion places a measurement recorded at the current position. -/
lemma appendGo_cons_eq (i : Nat) (rest : Circuit) (m : Operation)
    (ms : List (Nat × Operation)) :
    appendGo i rest ((i, m) :: ms) = m :: appendGo (i + 1) rest ms := by
  conv_lhs => rw [appendGo.eq_def]
  simp

/-- Reinsertion keeps the head of the measurement-free circuit when the
next recorded position lies further on. -/
lemma appendGo_cons_ne (i j : Nat) (r : Operation) (rest : Circuit) (m : Operation)
    (ms : List (Nat × Operation)) (h : i ≠ j) :
    appendGo i (r :: rest) ((j, m) :: ms) = r :: appendGo (i + 1) rest ((j, m) :: ms) := by
  conv_lhs => rw [appendGo.eq_def]
  simp [h]

/-- Every recorded measurement position is at least the starting index. -/
lemma measurementsFrom_ge : ∀ (c : Circuit) (i : Nat) (p : Nat × Operation),
    p ∈ measurementsFrom i c → i ≤ p.1 := by
  intro c
  induction c with
  | nil =>
    intro i p hp
    simp [measurementsFrom] at hp
  | cons op rest ih =>
    intro i p hp
    by_cases hm : _is_measurement op = true
    · simp only [measurementsFrom, hm, if_true, List.mem_cons] at hp
      rcases hp with h1 | h2
      · rw [h1]
      · exact le_trans (Nat.le_succ i) (ih (i + 1) p h2)
    · simp only [Bool.not_eq_true] at hm
      simp only [measurementsFrom, hm, Bool.false_eq_true, if_false] at hp
      exact le_trans (Nat.le_succ i) (ih (i + 1) p hp)

/-- A circuit with no recorded measurements is untouched by the
measurement filter. -/
lemma filter_eq_self_of_no_meas : ∀ (c : Circuit) (i : Nat),
    measurementsFrom i c = [] →
    c.filter (fun op => !(_is_measurement op)) = c := by
  intro c
  induction c with
  | nil =>
    intro i _
    rfl
  | cons op rest ih =>
    intro i h
    by_cases hm : _is_measurement op = true
    · simp [measurementsFrom, hm] at h
    · simp only [Bool.not_eq_true] at hm
      simp only [measurementsFrom, hm, Bool.false_eq_true, if_false] at h
      simp [List.filter_cons, hm, ih (i + 1) h]

/-- Reinserting the measurements extracted from any starting index into the
correspondingly filtered circuit reproduces the circuit. -/
lemma appendGo_roundtrip : ∀ (c : Circuit) (i : Nat),
    appendGo i (c.filter fun op => !(_is_measurement op)) (measurementsFrom i c) = c := by
  intro c
  induction c with
  | nil =>
    intro i
    simp [measurementsFrom, appendGo_nil]
  | cons op rest ih =>
    intro i
    by_cases hm : _is_measurement op = true
    · have hfil : (op :: rest).filter (fun o => !(_is_measurement o))
          = rest.filter (fun o => !(_is_measurement o)) := by
        simp [List.filter_cons, hm]
      have hmf : measurementsFrom i (op :: rest)
          = (i, op) :: measurementsFrom (i + 1) rest := by
        simp [measurementsFrom, hm]
      rw [hmf, hfil, appendGo_cons_eq, ih (i + 1)]
    · simp only [Bool.not_eq_true] at hm
      have hfil : (op :: rest).filter (fun o => !(_is_measurement o))
          = op :: rest.filter (fun o => !(_is_measurement o)) := by
        simp [List.filter_cons, hm]
      have hmf : measurementsFrom i (op :: rest) = measurementsFrom (i + 1) rest := by
        simp [measurementsFrom, hm]
      rw [hmf, hfil]
      cases hms : measurementsFrom (i + 1) rest with
      | nil =>
        rw [appendGo_nil, filter_eq_self_of_no_meas rest (i + 1) hms]
      | cons p ms2 =>
        obtain ⟨j, m⟩ := p
        have hij : i + 1 ≤ j := by
          apply measurementsFrom_ge rest (i + 1) (j, m)
          rw [hms]
          exact List.mem_cons_self _ _
        have hne : i ≠ j := by omega
        rw [appendGo_cons_ne i j op _ m ms2 hne, ← hms, ih (i + 1)]

/-- Extraction followed by reinsertion reproduces the original operation
list exactly. -/
lemma pop_append_eq (c : Circuit) :
    _append_measurements (_pop_measurements c).1 (_pop_measurements c).2 = c :=
  appendGo_roundtrip c 0

/-- An operation compares equal to itself under default strictness. -/
lemma opEqual_refl (s : List QubitId) (x : Operation) :
    opEqual s s false false x x = true := by
  by_cases hm : _is_measurement x = true <;> simp [opEqual, hm]

/-- Walking a circuit in lockstep with itself succeeds pairwise. -/
lemma all_zip_self (s : List QubitId) : ∀ (l : Circuit),
    ((l.zip l).all fun p => opEqual s s false false p.1 p.2) = true := by
  intro l
  induction l with
  | nil => rfl
  | cons x xs ih => simp [List.all_cons, opEqual_refl, ih]

/-- The equality comparator is reflexive at default strictness. -/
lemma equal_refl (c : Circuit) : _equal c c false false = true := by
  simp [_equal, all_zip_self]

/-- Claim C1: extracting the measurement operations and appending the
extracted sequence back in the same order reproduces the original
operation list exactly, hence a circuit equal to the original under the
equality comparator at default strictness; the statement quantifies over
every circuit, including the empty circuit and circuits holding only
measurement operations. -/
theorem pop_append_roundtrip (c : Circuit) :
    _append_measurements (_pop_measurements c).1 (_pop_measurements c).2 = c ∧
    _equal (_append_measurements (_pop_measurements c).1 (_pop_measurements c).2) c
      false false = true := by
  refine ⟨pop_append_eq c, ?_⟩
  rw [pop_append_eq c]
  exact equal_refl c

/-- Two lists whose images under a function agree position by position have
equal images. -/
lemma list_ext_map {α β : Type} (g : α → β) : ∀ (a b : List α),
    a.length = b.length →
    (∀ i (h1 : i < a.length) (h2 : i < b.length), g (a.get ⟨i, h1⟩) = g (b.get ⟨i, h2⟩)) →
    a.map g = b.map g := by
  intro a
  induction a with
  | nil =>
    intro b hl _
    cases b with
    | nil => rfl
    | cons y ys => simp at hl
  | cons x xs ih =>
    intro b hl hg
    cases b with
    | nil => simp at hl
    | cons y ys =>
      simp only [List.map_cons]
      have h0 : g x = g y := hg 0 (by simp) (by simp)
      rw [h0]
      congr 1
      apply ih ys (by simpa using hl)
      intro i hi1 hi2
      exact hg (i + 1) (by simpa using Nat.succ_lt_succ hi1) (by simpa using Nat.succ_lt_succ hi2)

/-- A lockstep walk succeeds when every corresponding pair compares
true. -/
lemma all_zip_of_get {α : Type} (p : α → α → Bool) : ∀ (a b : List α),
    a.length = b.length →
    (∀ i (h1 : i < a.length) (h2 : i < b.length), p (a.get ⟨i, h1⟩) (b.get ⟨i, h2⟩) = true) →
    ((a.zip b).all fun t => p t.1 t.2) = true := by
  intro a
  induction a with
  | nil =>
    intro b _ _
    rfl
  | cons x xs ih =>
    intro b hl hp
    cases b with
    | nil => simp at hl
    | cons y ys =>
      have h0 : p x y = true := hp 0 (by simp) (by simp)
      simp only [List.zip_cons_cons, List.all_cons, h0, Bool.true_and]
      apply ih ys (by simpa using hl)
      intro i hi1 hi2
      exact hp (i + 1) (by simpa using Nat.succ_lt_succ hi1) (by simpa using Nat.succ_lt_succ hi2)

/-- A lockstep walk fails as soon as one corresponding pair compares
false. -/
lemma all_zip_false_of_get {α : Type} (p : α → α → Bool) : ∀ (a b : List α) (i : Nat)
    (h1 : i < a.length) (h2 : i < b.length),
    p (a.get ⟨i, h1⟩) (b.get ⟨i, h2⟩) = false →
    ((a.zip b).all fun t => p t.1 t.2) = false := by
  intro a
  induction a with
  | nil =>
    intro b i h1
    simp at h1
  | cons x xs ih =>
    intro b i h1 h2 hp
    cases b with
    | nil => simp at h2
    | cons y ys =>
      simp only [List.zip_cons_cons, List.all_cons]
      cases i with
      | zero =>
        have hxy : p x y = false := hp
        simp [hxy]
      | succ n =>
        have hrest : ((xs.zip ys).all fun t => p t.1 t.2) = false :=
          ih ys n (Nat.lt_of_succ_lt_succ h1) (Nat.lt_of_succ_lt_succ h2) hp
        simp [hrest]

/-- Two operations with equal gates and qubit lists compare true under the
lenient comparator whenever their keys agree on non-measurement
operations. -/
lemma opEqual_of_parts (s t : List QubitId) (x y : Operation)
    (hg : x.gate = y.gate) (hq : x.qubits = y.qubits) (hst : s = t)
    (hk : _is_measurement x = false → x.key = y.key) :
    opEqual s t false false x y = true := by
  subst hst
  by_cases hm : _is_measurement x = true
  · simp [opEqual, hg, hq, hm]
  · simp only [Bool.not_eq_true] at hm
    simp [opEqual, hg, hq, hm, hk hm]

/-- Claim C5: for circuits identical except for the classical-key names on
corresponding measurement operations, the comparator returns true with
measurement strictness off; and whenever some corresponding measurement
pair differs in key, it returns false with measurement strictness on.  The
statement covers terminal and interleaved measurements alike, since the
differing measurement may sit at any position. -/
theorem measurement_key_insensitivity (A B : Circuit)
    (hLen : A.length = B.length)
    (hOps : ∀ i (h1 : i < A.length) (h2 : i < B.length),
      (A.get ⟨i, h1⟩).gate = (B.get ⟨i, h2⟩).gate ∧
      (A.get ⟨i, h1⟩).qubits = (B.get ⟨i, h2⟩).qubits ∧
      (_is_measurement (A.get ⟨i, h1⟩) = false →
        (A.get ⟨i, h1⟩).key = (B.get ⟨i, h2⟩).key)) :
    _equal A B false false = true ∧
    (∀ j (h1 : j < A.length) (h2 : j < B.length),
      _is_measurement (A.get ⟨j, h1⟩) = true →
      (A.get ⟨j, h1⟩).key ≠ (B.get ⟨j, h2⟩).key →
      _equal A B false true = false) := by
  have hcan : canonicalQubits A = canonicalQubits B := by
    unfold canonicalQubits concatQubits
    rw [list_ext_map (fun op => op.qubits) A B hLen (fun i h1 h2 => (hOps i h1 h2).2.1)]
  constructor
  · have h2 : ((A.zip B).all fun t =>
        opEqual (canonicalQubits A) (canonicalQubits B) false false t.1 t.2) = true := by
      apply all_zip_of_get _ A B hLen
      intro i hi1 hi2
      exact opEqual_of_parts _ _ _ _ (hOps i hi1 hi2).1 (hOps i hi1 hi2).2.1 hcan
        (hOps i hi1 hi2).2.2
    simp [_equal, h2, hLen]
  · intro j h1 h2 hm hk
    have hop : opEqual (canonicalQubits A) (canonicalQubits B) false true
        (A.get ⟨j, h1⟩) (B.get ⟨j, h2⟩) = false := by
      have hdk : decide ((A.get ⟨j, h1⟩).key = (B.get ⟨j, h2⟩).key) = false :=
        decide_eq_false hk
      simp [opEqual, hdk]
      intro _ _
      exact hk
    have hall := all_zip_false_of_get
      (opEqual (canonicalQubits A) (canonicalQubits B) false true) A B j h1 h2 hop
    simp [_equal, hall]

/-- A circuit with a measurement keyed one followed by a further gate. -/
def keyCircuitA : Circuit :=
  [⟨⟨GateFam.meas, 1⟩, [QubitId.line 0], some "one"⟩,
   ⟨⟨GateFam.H, 1⟩, [QubitId.line 0], none⟩]

/-- The same circuit with the measurement keyed two. -/
def keyCircuitB : Circuit :=
  [⟨⟨GateFam.meas, 1⟩, [QubitId.line 0], some "two"⟩,
   ⟨⟨GateFam.H, 1⟩, [QubitId.line 0], none⟩]

/-- Witness for claim C5 at two circuits differing only in the key of a
non-terminal measurement. -/
theorem measurement_key_insensitivity_witness :
    _equal keyCircuitA keyCircuitB false false = true ∧
    _equal keyCircuitA keyCircuitB false true = false :=
  ⟨(measurement_key_insensitivity keyCircuitA keyCircuitB rfl (by decide)).1,
   (measurement_key_insensitivity keyCircuitA keyCircuitB rfl (by decide)).2
     0 (by decide) (by decide) (by decide) (by decide)⟩

/-- Element access commutes with mapping a function over a list. -/
lemma get_map_gen {α β : Type} (g : α → β) : ∀ (l : List α) (i : Nat)
    (h : i < (l.map g).length) (h2 : i < l.length),
    (l.map g).get ⟨i, h⟩ = g (l.get ⟨i, h2⟩) := by
  intro l
  induction l with
  | nil =>
    intro i h
    simp at h
  | cons x xs ih =>
    intro i h h2
    cases i with
    | zero => rfl
    | succ n => exact ih n (by simpa using Nat.lt_of_succ_lt_succ h) (Nat.lt_of_succ_lt_succ h2)

/-- The qubit references of a relabeled circuit are the relabeled qubit
references of the circuit. -/
lemma concat_rename (f : QubitId → QubitId) : ∀ (A : Circuit),
    concatQubits (renameQubits f A) = (concatQubits A).map f := by
  intro A
  induction A with
  | nil => rfl
  | cons op rest ih =>
    simp only [concatQubits, renameQubits, List.map_cons, List.flatten_cons] at ih ⊢
    rw [ih, List.map_append]

/-- Deduplication commutes with an injective relabeling. -/
lemma dedupQ_map (f : QubitId → QubitId) (hinj : Function.Injective f) :
    ∀ (l : List QubitId), dedupQ (l.map f) = (dedupQ l).map f := by
  intro l
  induction l with
  | nil => rfl
  | cons x xs ih =>
    simp only [List.map_cons, dedupQ]
    by_cases hx : x ∈ xs
    · have hfx : f x ∈ xs.map f := List.mem_map_of_mem f hx
      simp [hx, hfx, ih]
    · have hfx : f x ∉ xs.map f := by
        intro hmem
        obtain ⟨a, ha, hfa⟩ := List.mem_map.mp hmem
        exact hx (hinj hfa ▸ ha)
      simp [hx, hfx, ih]

/-- Sorted insertion commutes with an order-compatible relabeling. -/
lemma insertSorted_map (f : QubitId → QubitId)
    (hord : ∀ a b, qubitLe (f a) (f b) = qubitLe a b) (q : QubitId) :
    ∀ (l : List QubitId), insertSorted (f q) (l.map f) = (insertSorted q l).map f := by
  intro l
  induction l with
  | nil => rfl
  | cons x xs ih =>
    simp only [List.map_cons, insertSorted, hord]
    by_cases h : qubitLe q x = true
    · simp [h]
    · simp only [Bool.not_eq_true] at h
      simp [h, ih]

/-- Sorting commutes with an order-compatible relabeling. -/
lemma sortQubits_map (f : QubitId → QubitId)
    (hord : ∀ a b, qubitLe (f a) (f b) = qubitLe a b) :
    ∀ (l : List QubitId), sortQubits (l.map f) = (sortQubits l).map f := by
  intro l
  induction l with
  | nil => rfl
  | cons x xs ih =>
    simp only [List.map_cons, sortQubits, ih]
    exact insertSorted_map f hord x (sortQubits xs)

/-- Ordinal positions are preserved by an injective relabeling. -/
lemma idxOf_map (f : QubitId → QubitId) (hinj : Function.Injective f) :
    ∀ (l : List QubitId) (q : QubitId), idxOf (f q) (l.map f) = idxOf q l := by
  intro l
  induction l with
  | nil =>
    intro q
    rfl
  | cons x xs ih =>
    intro q
    simp only [List.map_cons, idxOf]
    by_cases hxq : x = q
    · simp [hxq]
    · have hfxq : f x ≠ f q := fun hf => hxq (hinj hf)
      simp [hxq, hfxq, ih]

/-- The canonical qubit enumeration of a relabeled circuit is the relabeled
enumeration of the circuit, for an injective order-compatible
relabeling. -/
lemma canonical_rename (f : QubitId → QubitId) (A : Circuit)
    (hinj : Function.Injective f)
    (hord : ∀ a b, qubitLe (f a) (f b) = qubitLe a b) :
    canonicalQubits (renameQubits f A) = (canonicalQubits A).map f := by
  unfold canonicalQubits
  rw [concat_rename, dedupQ_map f hinj, sortQubits_map f hord]

/-- A relabeling that moves some member of a list changes the list. -/
lemma map_ne_of_mem (f : QubitId → QubitId) (q : QubitId) :
    ∀ (l : List QubitId), q ∈ l → f q ≠ q → l.map f ≠ l := by
  intro l
  induction l with
  | nil =>
    intro h
    simp at h
  | cons x xs ih =>
    intro hmem hfq heq
    simp only [List.map_cons, List.cons.injEq] at heq
    rcases List.mem_cons.mp hmem with h1 | h2
    · exact hfq (h1 ▸ heq.1)
    · exact ih h2 hfq heq.2

/-- An operation compares true against its qubit-relabeled form under the
lenient qubit comparison, for an injective relabeling of the canonical
enumeration. -/
lemma opEqual_rename (f : QubitId → QubitId) (sA : List QubitId) (mstrict : Bool)
    (x : Operation) (hinj : Function.Injective f) :
    opEqual sA (sA.map f) false mstrict x { x with qubits := x.qubits.map f } = true := by
  unfold opEqual
  have hq : (x.qubits.map f).map (fun q => idxOf q (sA.map f))
      = x.qubits.map (fun q => idxOf q sA) := by
    rw [List.map_map]
    have hfun : ((fun q => idxOf q (sA.map f)) ∘ f) = fun q => idxOf q sA := by
      funext q
      exact idxOf_map f hinj sA q
    rw [hfun]
  cases mstrict <;> by_cases hm : _is_measurement x = true <;> simp [hq, hm]

/-- Claim C6: a circuit compares equal, under lenient qubit strictness, to
its relabeling along any injective order-compatible map of qubit
identities, for either measurement strictness; and whenever the relabeling
actually moves a qubit used by the circuit, the two circuits compare
unequal under strict qubit identity. -/
theorem qubit_identity_insensitivity (f : QubitId → QubitId) (A : Circuit) (mstrict : Bool)
    (hinj : Function.Injective f)
    (hord : ∀ a b, qubitLe (f a) (f b) = qubitLe a b) :
    _equal A (renameQubits f A) false mstrict = true ∧
    (∀ i (h : i < A.length) q, q ∈ (A.get ⟨i, h⟩).qubits → f q ≠ q →
      _equal A (renameQubits f A) true mstrict = false) := by
  have hcan : canonicalQubits (renameQubits f A) = (canonicalQubits A).map f :=
    canonical_rename f A hinj hord
  constructor
  · have hall : ((A.zip (renameQubits f A)).all fun t =>
        opEqual (canonicalQubits A) ((canonicalQubits A).map f) false mstrict t.1 t.2)
        = true := by
      apply all_zip_of_get _ A (renameQubits f A) (by simp [renameQubits])
      intro i h1 h2
      simp only [renameQubits] at h2 ⊢
      have hget := get_map_gen (fun op => { op with qubits := op.qubits.map f }) A i h2 h1
      rw [hget]
      exact opEqual_rename f (canonicalQubits A) mstrict (A.get ⟨i, h1⟩) hinj
    unfold _equal
    rw [hcan, hall]
    simp [renameQubits]
  · intro i h q hq hfq
    have h2 : i < (renameQubits f A).length := by simpa [renameQubits] using h
    have hopf : opEqual (canonicalQubits A) (canonicalQubits (renameQubits f A)) true mstrict
        (A.get ⟨i, h⟩) ((renameQubits f A).get ⟨i, h2⟩) = false := by
      have h2m : i < (A.map fun op => { op with qubits := op.qubits.map f }).length := by
        simpa [renameQubits] using h2
      have hget : (renameQubits f A).get ⟨i, h2⟩
          = { A.get ⟨i, h⟩ with qubits := (A.get ⟨i, h⟩).qubits.map f } := by
        simp only [renameQubits]
        exact get_map_gen _ A i h2m h
      rw [hget]
      have hne : ((A.get ⟨i, h⟩).qubits.map f) ≠ (A.get ⟨i, h⟩).qubits :=
        map_ne_of_mem f q _ hq hfq
      have hd : decide ((A.get ⟨i, h⟩).qubits
          = ({ A.get ⟨i, h⟩ with qubits := (A.get ⟨i, h⟩).qubits.map f } : Operation).qubits)
          = false := decide_eq_false fun hh => hne hh.symm
      simp [opEqual, hd]
      exact fun hh => hne hh.symm
    have hall := all_zip_false_of_get
      (opEqual (canonicalQubits A) (canonicalQubits (renameQubits f A)) true mstrict)
      A (renameQubits f A) i h h2 hopf
    simp [_equal, hall]

/-- A concrete relabeling sending each line qubit to the grid qubit in row
zero of the same column, shifting existing grid rows down by one. -/
def fGrid : QubitId → QubitId
  | .line n => .grid 0 n
  | .grid r c => .grid (r + 1) c
  | .named s => .named s

/-- The line-to-grid relabeling is injective. -/
lemma fGrid_inj : Function.Injective fGrid := by
  intro a b h
  cases a <;> cases b <;> simp_all [fGrid]

/-- The line-to-grid relabeling preserves the natural enumeration order. -/
lemma fGrid_ord : ∀ a b, qubitLe (fGrid a) (fGrid b) = qubitLe a b := by
  intro a b
  cases a <;> cases b <;> simp [fGrid, qubitLe, Nat.succ_lt_succ_iff]

/-- A two-qubit circuit over line qubits. -/
def lineCircuitC6 : Circuit :=
  [⟨⟨GateFam.H, 1⟩, [QubitId.line 0], none⟩,
   ⟨⟨GateFam.H, 1⟩, [QubitId.line 1], none⟩]

/-- Witness for claim C6 at the line-qubit circuit and its grid-qubit
relabeling. -/
theorem qubit_identity_insensitivity_witness :
    _equal lineCircuitC6 (renameQubits fGrid lineCircuitC6) false false = true ∧
    _equal lineCircuitC6 (renameQubits fGrid lineCircuitC6) true false = false :=
  ⟨(qubit_identity_insensitivity fGrid lineCircuitC6 false fGrid_inj fGrid_ord).1,
   (qubit_identity_insensitivity fGrid lineCircuitC6 false fGrid_inj fGrid_ord).2
     0 (by decide) (QubitId.line 0) (by decide) (by decide)⟩
